import Mathlib

/-!
Verification of the Elo rating and pair-selection engine of the
everyday-elo-mobile repository (`src/lib/elo.ts` and the ranking screen
`src/app/rank/[id].tsx`).

JavaScript numbers are modelled as real numbers; `Math.round` (nearest
integer, ties toward plus infinity) is modelled by `jsRound`; the two calls
to `Math.random()` in pair selection are modelled by explicit parameters
(`rand` selecting the candidate index, `flip` selecting the presentation
order). Thrown exceptions are modelled with `Except`.
-/

/-- Embedding of the `EloItem` interface of `src/lib/elo.ts`. -/
structure EloItem where
  id : String
  name : String
  rating : ℝ
  comparisons : ℕ

/-- Default starting rating (`DEFAULT_RATING` in `src/lib/elo.ts`). -/
def DEFAULT_RATING : ℝ := 1500

/-- K-factor constant (`K_FACTOR` in `src/lib/elo.ts`). -/
def K_FACTOR : ℝ := 32

/-- Embedding of `expectedScore` of `src/lib/elo.ts`:
`1 / (1 + Math.pow(10, (ratingB - ratingA) / 400))`. -/
noncomputable def expectedScore (ratingA ratingB : ℝ) : ℝ :=
  1 / (1 + (10 : ℝ) ^ ((ratingB - ratingA) / 400))

/-- Real-valued model of JavaScript `Math.round`: the nearest integer, with
exact halves rounded toward positive infinity (per ECMA-262, `Math.round (x)`
is the integer closest to x, ties toward plus infinity, i.e. the floor of
x + 1/2 over exact reals). -/
noncomputable def jsRound (x : ℝ) : ℤ := ⌊x + 1 / 2⌋

/-- Result record of `calculateNewRatings`. -/
structure NewRatings where
  winnerRating : ℝ
  loserRating : ℝ

/-- Embedding of `calculateNewRatings` of `src/lib/elo.ts`. The source gives
`kFactor` the default value `K_FACTOR`; callers below pass it explicitly. -/
noncomputable def calculateNewRatings (winner loser : EloItem) (kFactor : ℝ) : NewRatings :=
  let expectedWinner := expectedScore winner.rating loser.rating
  let expectedLoser := expectedScore loser.rating winner.rating
  let winnerRating := winner.rating + kFactor * (1 - expectedWinner)
  let loserRating := loser.rating + kFactor * (0 - expectedLoser)
  ⟨(jsRound winnerRating : ℤ), (jsRound loserRating : ℤ)⟩

/-- Embedding of `applyComparison` of `src/lib/elo.ts`: looks up winner and
loser by id, throws on a missing id, otherwise maps over the array building
a new array with the two updated records. -/
noncomputable def applyComparison (items : List EloItem) (winnerId loserId : String) :
    Except String (List EloItem) :=
  match items.find? (fun item => item.id == winnerId),
      items.find? (fun item => item.id == loserId) with
  | some winner, some loser =>
      let result := calculateNewRatings winner loser K_FACTOR
      Except.ok (items.map (fun item =>
        if item.id == winnerId then
          ⟨item.id, item.name, result.winnerRating, item.comparisons + 1⟩
        else if item.id == loserId then
          ⟨item.id, item.name, result.loserRating, item.comparisons + 1⟩
        else item))
  | _, _ => Except.error "Invalid winner or loser ID"

/-- Embedding of `selectNextPair` of `src/lib/elo.ts`. The two calls to
`Math.random()` are modelled by `rand` (candidate index, reduced modulo the
candidate count, covering exactly the indices the source can produce) and
`flip` (50/50 presentation order). If the candidate pool were empty the
source would produce an undefined member; this is modelled as `none` (it is
unreachable for collections of two or more items with distinct ids). -/
noncomputable def selectNextPair (items : List EloItem) (rand : ℕ) (flip : Bool) :
    Option (EloItem × EloItem) :=
  if items.length < 2 then none
  else
    match items.mergeSort (fun a b => decide (a.comparisons ≤ b.comparisons)) with
    | [] => none
    | first :: _ =>
        let others := items.filter (fun item => item.id != first.id)
        let sortedOthers := others.mergeSort
          (fun a b => decide (|a.rating - first.rating| ≤ |b.rating - first.rating|))
        let candidates := sortedOthers.take 3
        match candidates[rand % candidates.length]? with
        | none => none
        | some second => some (if flip then (first, second) else (second, first))

/-- Embedding of `isRankingStable` of `src/lib/elo.ts`:
`items.every((item) => item.comparisons >= 2)`. -/
def isRankingStable (items : List EloItem) : Bool :=
  items.all (fun item => decide (2 ≤ item.comparisons))

/-- Embedding of `estimateComparisonsNeeded` of `src/lib/elo.ts` (the
argument is a natural count, so the ceiling is the product itself). -/
def estimateComparisonsNeeded (itemCount : ℕ) : ℕ := itemCount * 2

/-- Embedding of the `LocalRankedItem` interface of `src/app/rank/[id].tsx`. -/
structure LocalRankedItem where
  id : String
  itemId : String
  name : String
  rating : ℝ
  comparisons : ℕ

/-- Embedding of the screen-local `selectNextPair` of `src/app/rank/[id].tsx`
(the express/lopsided-filter variant). Items are paired with their original
index (the source maps each item to `{...item, originalIndex: index}` before
sorting); `sorted.filter((_, i) => i !== 0)` keeps every position except the
head, i.e. the tail of the sorted list. The express filter (rating distance
below 200) applies only when `skipObvious` is set, more than one opponent
exists, and at least one opponent passes the filter. The result is the pair
of original indices the source passes to `setCurrentPair`. -/
noncomputable def selectNextPairScreen (items : List LocalRankedItem) (skipObvious : Bool)
    (rand : ℕ) (flip : Bool) : Option (ℕ × ℕ) :=
  if items.length < 2 then none
  else
    match items.enum.mergeSort (fun a b => decide (a.2.comparisons ≤ b.2.comparisons)) with
    | [] => none
    | first :: rest =>
        let others :=
          if skipObvious && decide (1 < rest.length) then
            let closeOthers := rest.filter (fun o => decide (|o.2.rating - first.2.rating| < 200))
            if 0 < closeOthers.length then closeOthers else rest
          else rest
        let sortedOthers := others.mergeSort
          (fun a b => decide (|a.2.rating - first.2.rating| ≤ |b.2.rating - first.2.rating|))
        let candidates := sortedOthers.take 3
        match candidates[rand % candidates.length]? with
        | none => none
        | some second => some (if flip then (first.1, second.1) else (second.1, first.1))

/-- Modelled from the spec: rounding to the nearest integer with exact halves
rounded away from zero, the rounding mode the spec asserts the source uses
(the source actually uses `Math.round`, see `jsRound`). -/
noncomputable def roundHalfAwayFromZero (x : ℝ) : ℤ :=
  if 0 ≤ x then ⌊x + 1 / 2⌋ else -⌊-x + 1 / 2⌋

/-! ### Basic facts about `expectedScore` and `jsRound` -/

lemma ten_rpow_pos (x : ℝ) : 0 < (10 : ℝ) ^ x :=
  Real.rpow_pos_of_pos (by norm_num) x

lemma expectedScore_pos (a b : ℝ) : 0 < expectedScore a b := by
  unfold expectedScore
  have h := ten_rpow_pos ((b - a) / 400)
  positivity

lemma expectedScore_lt_one (a b : ℝ) : expectedScore a b < 1 := by
  unfold expectedScore
  have h := ten_rpow_pos ((b - a) / 400)
  rw [div_lt_one (by linarith)]
  linarith

lemma expectedScore_add_symm (a b : ℝ) : expectedScore a b + expectedScore b a = 1 := by
  unfold expectedScore
  have hrw : (10 : ℝ) ^ ((a - b) / 400) = ((10 : ℝ) ^ ((b - a) / 400))⁻¹ := by
    rw [show (a - b) / 400 = -((b - a) / 400) by ring, Real.rpow_neg (by norm_num)]
  rw [hrw]
  have ht : 0 < (10 : ℝ) ^ ((b - a) / 400) := ten_rpow_pos _
  have h1 : (1 : ℝ) + (10 : ℝ) ^ ((b - a) / 400) ≠ 0 := by linarith
  field_simp
  ring

lemma expectedScore_self (r : ℝ) : expectedScore r r = 1 / 2 := by
  unfold expectedScore
  rw [sub_self, zero_div, Real.rpow_zero]
  norm_num

lemma jsRound_le (x : ℝ) : (jsRound x : ℝ) ≤ x + 1 / 2 := by
  unfold jsRound
  exact Int.floor_le _

lemma lt_jsRound (x : ℝ) : x - 1 / 2 < (jsRound x : ℝ) := by
  unfold jsRound
  have h := Int.sub_one_lt_floor (x + 1 / 2)
  linarith

/-- C4: for all ratings a and b, expectedScore is strictly between 0 and 1,
expectedScore a b + expectedScore b a equals 1 (exact over the real-valued
model), and for equal ratings it equals exactly one half. -/
theorem expectedScore_props (a b : ℝ) :
    0 < expectedScore a b ∧ expectedScore a b < 1 ∧
      expectedScore a b + expectedScore b a = 1 ∧ expectedScore a a = 1 / 2 :=
  ⟨expectedScore_pos a b, expectedScore_lt_one a b,
    expectedScore_add_symm a b, expectedScore_self a⟩

/-- C8: isRankingStable returns true exactly when every item in the
collection has at least 2 comparisons; in particular it is true for the
empty collection. -/
theorem isRankingStable_iff (items : List EloItem) :
    (isRankingStable items = true ↔ ∀ item ∈ items, 2 ≤ item.comparisons) ∧
      isRankingStable [] = true := by
  constructor
  · simp [isRankingStable, List.all_eq_true]
  · rfl

/-- C2: when either id is absent from the collection, applyComparison fails
with the invalid-reference error. The embedding is a pure function, so the
input collection is untouched by construction. -/
theorem applyComparison_unknown_id (items : List EloItem) (winnerId loserId : String)
    (h : (∀ item ∈ items, item.id ≠ winnerId) ∨ (∀ item ∈ items, item.id ≠ loserId)) :
    applyComparison items winnerId loserId = Except.error "Invalid winner or loser ID" := by
  unfold applyComparison
  rcases h with h | h
  · have hw : items.find? (fun item => item.id == winnerId) = none := by
      rw [List.find?_eq_none]
      intro x hx
      simpa using h x hx
    cases hl : items.find? (fun item => item.id == loserId) with
    | none => rw [hw]
    | some l => rw [hw]
  · have hl : items.find? (fun item => item.id == loserId) = none := by
      rw [List.find?_eq_none]
      intro x hx
      simpa using h x hx
    cases hw : items.find? (fun item => item.id == winnerId) with
    | none => rw [hl]
    | some w => rw [hl]

theorem applyComparison_unknown_id_witness :
    (∀ item ∈ [EloItem.mk "b" "b" 1500 0], item.id ≠ "missing") ∧
      applyComparison [EloItem.mk "b" "b" 1500 0] "missing" "b" =
        Except.error "Invalid winner or loser ID" := by
  refine ⟨by decide, applyComparison_unknown_id _ _ _ (Or.inl (by decide))⟩

/-- C5: the sum of the two rounded new ratings differs from the sum of the
two original ratings by at most 1 (each side contributes at most one half of
rounding error, and the pre-rounding update is exactly conservative). -/
theorem calculateNewRatings_conservation (winner loser : EloItem) (kFactor : ℝ)
    (hK : 0 < kFactor) :
    |(calculateNewRatings winner loser kFactor).winnerRating +
        (calculateNewRatings winner loser kFactor).loserRating -
        (winner.rating + loser.rating)| ≤ 1 := by
  have hsum := expectedScore_add_symm winner.rating loser.rating
  simp only [calculateNewRatings]
  set pw := winner.rating + kFactor * (1 - expectedScore winner.rating loser.rating) with hpw
  set pl := loser.rating + kFactor * (0 - expectedScore loser.rating winner.rating) with hpl
  have hpp : pw + pl = winner.rating + loser.rating := by
    have hz : pw + pl = winner.rating + loser.rating +
        kFactor * (1 - (expectedScore winner.rating loser.rating +
          expectedScore loser.rating winner.rating)) := by
      rw [hpw, hpl]; ring
    rw [hsum] at hz
    simpa using hz
  have b1 := jsRound_le pw
  have b2 := lt_jsRound pw
  have b3 := jsRound_le pl
  have b4 := lt_jsRound pl
  rw [abs_le]
  constructor <;> linarith

theorem calculateNewRatings_conservation_witness :
    (0 : ℝ) < 32 ∧
      |(calculateNewRatings (EloItem.mk "a" "a" 1500 0) (EloItem.mk "b" "b" 1400 0) 32).winnerRating +
          (calculateNewRatings (EloItem.mk "a" "a" 1500 0) (EloItem.mk "b" "b" 1400 0) 32).loserRating -
          ((1500 : ℝ) + 1400)| ≤ 1 :=
  ⟨by norm_num,
    calculateNewRatings_conservation (EloItem.mk "a" "a" 1500 0) (EloItem.mk "b" "b" 1400 0) 32
      (by norm_num)⟩

/-- C7 (amended): both results of calculateNewRatings are integers obtained
by rounding the pre-rounding values to the nearest integer with exact halves
rounded toward positive infinity: each result is the unique integer in the
half-open interval (pre - 1/2, pre + 1/2]. (The spec claims halves are
rounded away from zero; see the counterexample.) -/
theorem calculateNewRatings_round_characterization (winner loser : EloItem) (kFactor : ℝ) :
    (∃ n : ℤ, (calculateNewRatings winner loser kFactor).winnerRating = (n : ℝ) ∧
        winner.rating + kFactor * (1 - expectedScore winner.rating loser.rating) - 1 / 2 <
          (n : ℝ) ∧
        (n : ℝ) ≤
          winner.rating + kFactor * (1 - expectedScore winner.rating loser.rating) + 1 / 2) ∧
    (∃ m : ℤ, (calculateNewRatings winner loser kFactor).loserRating = (m : ℝ) ∧
        loser.rating + kFactor * (0 - expectedScore loser.rating winner.rating) - 1 / 2 <
          (m : ℝ) ∧
        (m : ℝ) ≤
          loser.rating + kFactor * (0 - expectedScore loser.rating winner.rating) + 1 / 2) := by
  constructor
  · exact ⟨jsRound (winner.rating + kFactor * (1 - expectedScore winner.rating loser.rating)),
      by simp [calculateNewRatings], lt_jsRound _, jsRound_le _⟩
  · exact ⟨jsRound (loser.rating + kFactor * (0 - expectedScore loser.rating winner.rating)),
      by simp [calculateNewRatings], lt_jsRound _, jsRound_le _⟩

/-- C7 (counterexample): with equal ratings 0 and kFactor 1 the loser's
pre-rounding value is exactly -1/2; rounding half away from zero would give
-1, but the source (Math.round) produces 0. -/
theorem calculateNewRatings_round_cex :
    (0 : ℝ) + 1 * (0 - expectedScore 0 0) = -(1 / 2) ∧
    roundHalfAwayFromZero (-(1 / 2)) = -1 ∧
    (calculateNewRatings (EloItem.mk "a" "a" 0 0) (EloItem.mk "b" "b" 0 0) 1).loserRating = 0 ∧
    ((0 : ℝ) ≠ ((-1 : ℤ) : ℝ)) := by
  refine ⟨?_, ?_, ?_, by norm_num⟩
  · rw [expectedScore_self]; norm_num
  · unfold roundHalfAwayFromZero
    rw [if_neg (by norm_num)]
    norm_num
  · simp only [calculateNewRatings, expectedScore_self]
    unfold jsRound
    norm_num

lemma expectedScore_2300_1500 : expectedScore 2300 1500 = 100 / 101 := by
  unfold expectedScore
  rw [show ((1500 : ℝ) - 2300) / 400 = ((-2 : ℤ) : ℝ) by norm_num, Real.rpow_intCast]
  norm_num

lemma expectedScore_1500_2300 : expectedScore 1500 2300 = 1 / 101 := by
  unfold expectedScore
  rw [show ((2300 : ℝ) - 1500) / 400 = ((2 : ℤ) : ℝ) by norm_num, Real.rpow_intCast]
  norm_num

/-- C6 (counterexample): with the default kFactor 32 and a rating gap of 800
(winner 2300, loser 1500) both expected changes are about 0.317 and round to
zero, so the winner's rating does not strictly increase and the loser's does
not strictly decrease. -/
theorem calculateNewRatings_monotone_cex :
    (0 : ℝ) < K_FACTOR ∧
    (calculateNewRatings (EloItem.mk "w" "w" 2300 0)
        (EloItem.mk "l" "l" 1500 0) K_FACTOR).winnerRating = 2300 ∧
    (calculateNewRatings (EloItem.mk "w" "w" 2300 0)
        (EloItem.mk "l" "l" 1500 0) K_FACTOR).loserRating = 1500 ∧
    ¬ ((2300 : ℝ) < 2300) ∧ ¬ ((1500 : ℝ) > 1500) := by
  refine ⟨by norm_num [K_FACTOR], ?_, ?_, by norm_num, by norm_num⟩
  · simp only [calculateNewRatings, K_FACTOR, expectedScore_2300_1500]
    unfold jsRound
    have h : ⌊(2300 : ℝ) + 32 * (1 - 100 / 101) + 1 / 2⌋ = 2300 := by
      rw [Int.floor_eq_iff]
      constructor <;> norm_num
    rw [h]
    norm_num
  · simp only [calculateNewRatings, K_FACTOR, expectedScore_1500_2300]
    unfold jsRound
    have h : ⌊(1500 : ℝ) + 32 * (0 - 1 / 101) + 1 / 2⌋ = 1500 := by
      rw [Int.floor_eq_iff]
      constructor <;> norm_num
    rw [h]
    norm_num

/-- C6 (amended): for items with integer ratings (the data-model invariant:
ratings start at 1500 and are always rounded) and positive kFactor, the
winner's new rating is at least its original and the loser's new rating is
at most its original; strictness fails when the scaled expected change
rounds to zero (see the counterexample). -/
theorem calculateNewRatings_monotone (winner loser : EloItem) (kFactor : ℝ) (hK : 0 < kFactor)
    (hw : ∃ n : ℤ, winner.rating = (n : ℝ)) (hl : ∃ m : ℤ, loser.rating = (m : ℝ)) :
    winner.rating ≤ (calculateNewRatings winner loser kFactor).winnerRating ∧
      (calculateNewRatings winner loser kFactor).loserRating ≤ loser.rating := by
  obtain ⟨n, hn⟩ := hw
  obtain ⟨m, hm⟩ := hl
  have hE1 : expectedScore winner.rating loser.rating < 1 := expectedScore_lt_one _ _
  have hE2 : 0 < expectedScore loser.rating winner.rating := expectedScore_pos _ _
  have hgain : 0 < kFactor * (1 - expectedScore winner.rating loser.rating) :=
    mul_pos hK (by linarith)
  have hloss : 0 < kFactor * expectedScore loser.rating winner.rating := mul_pos hK hE2
  constructor
  · simp only [calculateNewRatings]
    have h1 : n ≤ jsRound (winner.rating +
        kFactor * (1 - expectedScore winner.rating loser.rating)) := by
      unfold jsRound
      rw [Int.le_floor]
      rw [hn] at hgain ⊢
      linarith
    calc winner.rating = (n : ℝ) := hn
      _ ≤ _ := by exact_mod_cast h1
  · simp only [calculateNewRatings]
    have h2 : jsRound (loser.rating +
        kFactor * (0 - expectedScore loser.rating winner.rating)) ≤ m := by
      unfold jsRound
      have hlt : ⌊loser.rating + kFactor *
          (0 - expectedScore loser.rating winner.rating) + 1 / 2⌋ < m + 1 := by
        rw [Int.floor_lt]
        rw [hm] at hloss ⊢
        push_cast
        linarith
      omega
    calc ((jsRound _ : ℤ) : ℝ) ≤ (m : ℝ) := by exact_mod_cast h2
      _ = loser.rating := hm.symm

theorem calculateNewRatings_monotone_witness :
    (0 : ℝ) < 32 ∧ (∃ n : ℤ, (EloItem.mk "w" "w" 1500 0).rating = (n : ℝ)) ∧
      ((EloItem.mk "w" "w" 1500 0).rating ≤
          (calculateNewRatings (EloItem.mk "w" "w" 1500 0)
            (EloItem.mk "l" "l" 1500 0) 32).winnerRating ∧
        (calculateNewRatings (EloItem.mk "w" "w" 1500 0)
            (EloItem.mk "l" "l" 1500 0) 32).loserRating ≤
          (EloItem.mk "l" "l" 1500 0).rating) :=
  ⟨by norm_num, ⟨1500, by norm_num⟩,
    calculateNewRatings_monotone (EloItem.mk "w" "w" 1500 0) (EloItem.mk "l" "l" 1500 0) 32
      (by norm_num) ⟨1500, by norm_num⟩ ⟨1500, by norm_num⟩⟩

/-! ### Lookup helpers for collections with pairwise-distinct ids -/

lemma find?_id_eq (items : List EloItem) (s : String) (x : EloItem)
    (hnd : (items.map EloItem.id).Nodup) (hx : x ∈ items) (hxs : x.id = s) :
    items.find? (fun item => item.id == s) = some x := by
  induction items with
  | nil => cases hx
  | cons a t ih =>
    rw [List.map_cons, List.nodup_cons] at hnd
    obtain ⟨ha, ht⟩ := hnd
    rcases List.mem_cons.mp hx with h | hxt
    · subst h
      exact List.find?_cons_of_pos _ (by simpa using hxs)
    · have hane : ¬ ((a.id == s) = true) := by
        simp only [beq_iff_eq]
        intro he
        exact ha (by rw [he, ← hxs]; exact List.mem_map_of_mem EloItem.id hxt)
      rw [@List.find?_cons_of_neg _ (fun item => item.id == s) a t hane]
      exact ih ht hxt

lemma mem_id_inj {items : List EloItem} (hnd : (items.map EloItem.id).Nodup)
    {x y : EloItem} (hx : x ∈ items) (hy : y ∈ items) (hxy : x.id = y.id) : x = y := by
  induction items with
  | nil => cases hx
  | cons a t ih =>
    rw [List.map_cons, List.nodup_cons] at hnd
    obtain ⟨ha, ht⟩ := hnd
    rcases List.mem_cons.mp hx with h1 | hxt
    · rcases List.mem_cons.mp hy with h2 | hyt
      · rw [h1, h2]
      · subst h1
        exact absurd (by rw [hxy]; exact List.mem_map_of_mem EloItem.id hyt) ha
    · rcases List.mem_cons.mp hy with h2 | hyt
      · subst h2
        exact absurd (by rw [← hxy]; exact List.mem_map_of_mem EloItem.id hxt) ha
      · exact ih ht hxt hyt

/-- C1 (counterexample): with winnerId and loserId both equal to an id
present in the collection, the claim requires the loser's rating to become
the loser-side value of calculateNewRatings (1484 here), but the source
returns the winner-side value 1516. -/
theorem applyComparison_same_id_cex :
    applyComparison [EloItem.mk "a" "a" 1500 0] "a" "a" =
      Except.ok [EloItem.mk "a" "a" 1516 1] ∧
    (calculateNewRatings (EloItem.mk "a" "a" 1500 0) (EloItem.mk "a" "a" 1500 0)
        K_FACTOR).loserRating = 1484 ∧
    ((1516 : ℝ) ≠ 1484) := by
  refine ⟨?_, ?_, by norm_num⟩
  · simp only [applyComparison, List.find?]
    norm_num [calculateNewRatings, K_FACTOR, expectedScore_self, jsRound]
  · norm_num [calculateNewRatings, K_FACTOR, expectedScore_self, jsRound]

/-- C1 (amended): for distinct winner and loser ids, both present in a
collection with pairwise-distinct ids, applyComparison returns a new
collection of the same length in which the winner's and loser's ratings are
the values computed by calculateNewRatings, each of their comparison counts
grows by exactly 1, and every other position is returned unchanged. The
embedding is a pure function, so the input collection is not mutated. -/
theorem applyComparison_frame (items : List EloItem) (winner loser : EloItem)
    (hnd : (items.map EloItem.id).Nodup) (hw : winner ∈ items) (hl : loser ∈ items)
    (hne : winner.id ≠ loser.id) :
    ∃ res, applyComparison items winner.id loser.id = Except.ok res ∧
      res.length = items.length ∧
      ∀ i : ℕ, ∀ item : EloItem, items[i]? = some item →
        ((item.id = winner.id →
          res[i]? = some (EloItem.mk item.id item.name
            (calculateNewRatings winner loser K_FACTOR).winnerRating (item.comparisons + 1))) ∧
         (item.id = loser.id →
          res[i]? = some (EloItem.mk item.id item.name
            (calculateNewRatings winner loser K_FACTOR).loserRating (item.comparisons + 1))) ∧
         (item.id ≠ winner.id → item.id ≠ loser.id → res[i]? = some item)) := by
  have hfw := find?_id_eq items winner.id winner hnd hw rfl
  have hfl := find?_id_eq items loser.id loser hnd hl rfl
  unfold applyComparison
  rw [hfw, hfl]
  refine ⟨_, rfl, by simp, ?_⟩
  intro i item hi
  refine ⟨?_, ?_, ?_⟩
  · intro hiw
    rw [List.getElem?_map, hi]
    simp [hiw]
  · intro hil
    have hlw : loser.id ≠ winner.id := Ne.symm hne
    rw [List.getElem?_map, hi]
    simp [hil, hlw]
  · intro h1 h2
    rw [List.getElem?_map, hi]
    simp [beq_iff_eq, h1, h2]

theorem applyComparison_frame_witness :
    (([EloItem.mk "a" "x" 1500 0, EloItem.mk "b" "y" 1500 0].map EloItem.id).Nodup ∧
      EloItem.mk "a" "x" 1500 0 ∈ [EloItem.mk "a" "x" 1500 0, EloItem.mk "b" "y" 1500 0] ∧
      EloItem.mk "b" "y" 1500 0 ∈ [EloItem.mk "a" "x" 1500 0, EloItem.mk "b" "y" 1500 0] ∧
      (EloItem.mk "a" "x" 1500 0).id ≠ (EloItem.mk "b" "y" 1500 0).id) ∧
    (∃ res,
      applyComparison [EloItem.mk "a" "x" 1500 0, EloItem.mk "b" "y" 1500 0]
          (EloItem.mk "a" "x" 1500 0).id (EloItem.mk "b" "y" 1500 0).id = Except.ok res ∧
      res.length = [EloItem.mk "a" "x" 1500 0, EloItem.mk "b" "y" 1500 0].length ∧
      ∀ i : ℕ, ∀ item : EloItem,
        [EloItem.mk "a" "x" 1500 0, EloItem.mk "b" "y" 1500 0][i]? = some item →
        ((item.id = (EloItem.mk "a" "x" 1500 0).id →
          res[i]? = some (EloItem.mk item.id item.name
            (calculateNewRatings (EloItem.mk "a" "x" 1500 0) (EloItem.mk "b" "y" 1500 0)
              K_FACTOR).winnerRating (item.comparisons + 1))) ∧
         (item.id = (EloItem.mk "b" "y" 1500 0).id →
          res[i]? = some (EloItem.mk item.id item.name
            (calculateNewRatings (EloItem.mk "a" "x" 1500 0) (EloItem.mk "b" "y" 1500 0)
              K_FACTOR).loserRating (item.comparisons + 1))) ∧
         (item.id ≠ (EloItem.mk "a" "x" 1500 0).id → item.id ≠ (EloItem.mk "b" "y" 1500 0).id →
          res[i]? = some item))) :=
  ⟨⟨by decide, List.mem_cons_self _ _, by simp, by decide⟩,
    applyComparison_frame [EloItem.mk "a" "x" 1500 0, EloItem.mk "b" "y" 1500 0]
      (EloItem.mk "a" "x" 1500 0) (EloItem.mk "b" "y" 1500 0)
      (by decide) (List.mem_cons_self _ _) (by simp) (by decide)⟩

/-- C10: calling applyComparison with the same id x as winner and loser does
not fail: the single item with id x (ids being pairwise distinct per the
data model) receives the winner-side update, rounding rating + K_FACTOR/2
(the expected score of equal ratings being one half), its comparison count
grows by exactly 1, and every other position is returned unchanged. -/
theorem applyComparison_self (items : List EloItem) (x : EloItem)
    (hnd : (items.map EloItem.id).Nodup) (hx : x ∈ items) :
    ∃ res, applyComparison items x.id x.id = Except.ok res ∧
      res.length = items.length ∧
      ∀ i : ℕ, ∀ item : EloItem, items[i]? = some item →
        ((item.id = x.id →
          res[i]? = some (EloItem.mk item.id item.name
            ((jsRound (item.rating + K_FACTOR / 2) : ℤ) : ℝ) (item.comparisons + 1))) ∧
         (item.id ≠ x.id → res[i]? = some item)) := by
  have hf := find?_id_eq items x.id x hnd hx rfl
  unfold applyComparison
  rw [hf]
  refine ⟨_, rfl, by simp, ?_⟩
  intro i item hi
  constructor
  · intro hix
    have hmem : item ∈ items := List.mem_iff_getElem?.mpr ⟨i, hi⟩
    have hitem : item = x := mem_id_inj hnd hmem hx hix
    rw [List.getElem?_map, hi]
    subst hitem
    simp only [Option.map_some', Option.some.injEq, hix, beq_self_eq_true, if_true]
    have harg : item.rating + K_FACTOR * (1 - expectedScore item.rating item.rating) =
        item.rating + K_FACTOR / 2 := by
      rw [expectedScore_self]
      ring
    simp [calculateNewRatings, harg]
  · intro hne
    rw [List.getElem?_map, hi]
    simp [beq_iff_eq, hne]

theorem applyComparison_self_witness :
    (([EloItem.mk "a" "x" 1500 0, EloItem.mk "b" "y" 1500 0].map EloItem.id).Nodup ∧
      EloItem.mk "a" "x" 1500 0 ∈ [EloItem.mk "a" "x" 1500 0, EloItem.mk "b" "y" 1500 0]) ∧
    (∃ res,
      applyComparison [EloItem.mk "a" "x" 1500 0, EloItem.mk "b" "y" 1500 0]
          (EloItem.mk "a" "x" 1500 0).id (EloItem.mk "a" "x" 1500 0).id = Except.ok res ∧
      res.length = [EloItem.mk "a" "x" 1500 0, EloItem.mk "b" "y" 1500 0].length ∧
      ∀ i : ℕ, ∀ item : EloItem,
        [EloItem.mk "a" "x" 1500 0, EloItem.mk "b" "y" 1500 0][i]? = some item →
        ((item.id = (EloItem.mk "a" "x" 1500 0).id →
          res[i]? = some (EloItem.mk item.id item.name
            ((jsRound (item.rating + K_FACTOR / 2) : ℤ) : ℝ) (item.comparisons + 1))) ∧
         (item.id ≠ (EloItem.mk "a" "x" 1500 0).id → res[i]? = some item))) :=
  ⟨⟨by decide, List.mem_cons_self _ _⟩,
    applyComparison_self [EloItem.mk "a" "x" 1500 0, EloItem.mk "b" "y" 1500 0]
      (EloItem.mk "a" "x" 1500 0) (by decide) (List.mem_cons_self _ _)⟩

/-! ### Generic facts about sorting by a measure -/

lemma decideLe_trans {α β : Type _} [LinearOrder β] (f : α → β) (a b c : α)
    (h1 : decide (f a ≤ f b) = true) (h2 : decide (f b ≤ f c) = true) :
    decide (f a ≤ f c) = true := by
  simp only [decide_eq_true_eq] at h1 h2 ⊢
  exact le_trans h1 h2

lemma decideLe_total {α β : Type _} [LinearOrder β] (f : α → β) (a b : α) :
    (decide (f a ≤ f b) || decide (f b ≤ f a)) = true := by
  simp [le_total]

lemma mergeSort_sorted_by {α β : Type _} [LinearOrder β] (f : α → β) (l : List α) :
    (l.mergeSort (fun a b => decide (f a ≤ f b))).Pairwise
      (fun a b => decide (f a ≤ f b) = true) :=
  @List.sorted_mergeSort α (fun a b => decide (f a ≤ f b))
    (fun a b c h1 h2 => decideLe_trans f a b c h1 h2)
    (fun a b => decideLe_total f a b) l

lemma sorted_head_min {α β : Type _} [LinearOrder β] (f : α → β) (l : List α)
    (first : α) (rest : List α)
    (hs : l.mergeSort (fun a b => decide (f a ≤ f b)) = first :: rest) :
    ∀ x ∈ l, f first ≤ f x := by
  have hperm := List.mergeSort_perm l (fun a b => decide (f a ≤ f b))
  have hsorted := mergeSort_sorted_by f l
  rw [hs] at hperm hsorted
  intro x hx
  rcases List.mem_cons.mp (hperm.symm.subset hx) with h | h
  · rw [h]
  · have := (List.pairwise_cons.mp hsorted).1 x h
    simpa using this

lemma take3_getElem {α : Type _} (s : List α) (hs : s ≠ []) (rand : ℕ) :
    ∃ j x, j = rand % (s.take 3).length ∧ (s.take 3)[j]? = some x ∧ s[j]? = some x ∧
      j ≤ 2 ∧ j < s.length := by
  have hlen : 0 < (s.take 3).length := by
    rw [List.length_take]
    have := List.length_pos.mpr hs
    omega
  have hjlt : rand % (s.take 3).length < (s.take 3).length := Nat.mod_lt _ hlen
  have hlen3 : (s.take 3).length = min 3 s.length := List.length_take _ _
  have hj3 : rand % (s.take 3).length < 3 :=
    lt_of_lt_of_le hjlt (by rw [hlen3]; exact min_le_left _ _)
  have hjs : rand % (s.take 3).length < s.length :=
    lt_of_lt_of_le hjlt (by rw [hlen3]; exact min_le_right _ _)
  refine ⟨rand % (s.take 3).length, s.get ⟨rand % (s.take 3).length, hjs⟩, rfl, ?_, ?_, ?_, hjs⟩
  · rw [List.getElem?_take, if_pos hj3]
    exact List.getElem?_eq_getElem hjs
  · exact List.getElem?_eq_getElem hjs
  · omega

lemma countP_sorted_lt_le {α : Type _} (f : α → ℝ) (s : List α)
    (hsorted : s.Pairwise (fun a b => decide (f a ≤ f b) = true))
    (j : ℕ) (hj2 : j ≤ 2) (hjs : j < s.length) (x : α) (hx : s[j]? = some x) :
    s.countP (fun o => decide (f o < f x)) ≤ 2 := by
  have hxx : s.get ⟨j, hjs⟩ = x := by
    rw [List.getElem?_eq_getElem hjs] at hx
    exact Option.some.inj hx
  have hdrop : s.drop j = x :: s.drop (j + 1) := by
    rw [List.drop_eq_getElem_cons hjs]
    rw [show s[j] = s.get ⟨j, hjs⟩ from rfl, hxx]
  have hdropzero : (s.drop j).countP (fun o => decide (f o < f x)) = 0 := by
    rw [List.countP_eq_zero]
    have hpw : (s.drop j).Pairwise (fun a b => decide (f a ≤ f b) = true) :=
      List.Pairwise.sublist (List.drop_sublist j s) hsorted
    rw [hdrop] at hpw
    intro a ha
    rw [hdrop] at ha
    rcases List.mem_cons.mp ha with h | h
    · subst h
      simp
    · have := (List.pairwise_cons.mp hpw).1 a h
      simp only [decide_eq_true_eq] at this ⊢
      exact not_lt.mpr this
  calc s.countP (fun o => decide (f o < f x))
      = (s.take j ++ s.drop j).countP (fun o => decide (f o < f x)) := by
        rw [List.take_append_drop]
    _ = (s.take j).countP (fun o => decide (f o < f x)) +
        (s.drop j).countP (fun o => decide (f o < f x)) := List.countP_append _ _ _
    _ ≤ j + 0 := by
        refine Nat.add_le_add ?_ (by rw [hdropzero])
        calc (s.take j).countP (fun o => decide (f o < f x)) ≤ (s.take j).length :=
              List.countP_le_length _
          _ ≤ j := List.length_take_le _ _
    _ ≤ 2 := by omega

lemma exists_other_id (items : List EloItem) (hnd : (items.map EloItem.id).Nodup)
    (h2 : 2 ≤ items.length) (first : EloItem) :
    ∃ y ∈ items, y.id ≠ first.id := by
  have h0 : 0 < items.length := by omega
  have h1 : 1 < items.length := by omega
  have hm0 : items.get ⟨0, h0⟩ ∈ items := List.get_mem items 0 h0
  have hm1 : items.get ⟨1, h1⟩ ∈ items := List.get_mem items 1 h1
  have hne : (items.get ⟨0, h0⟩).id ≠ (items.get ⟨1, h1⟩).id := by
    intro he
    have h0m : 0 < (items.map EloItem.id).length := by simpa using h0
    have h1m : 1 < (items.map EloItem.id).length := by simpa using h1
    have hg0 : (items.map EloItem.id).get ⟨0, h0m⟩ = (items.get ⟨0, h0⟩).id := by
      simp
    have hg1 : (items.map EloItem.id).get ⟨1, h1m⟩ = (items.get ⟨1, h1⟩).id := by
      simp
    have : (⟨0, h0m⟩ : Fin (items.map EloItem.id).length) = ⟨1, h1m⟩ := by
      apply List.Nodup.get_inj_iff hnd |>.mp
      rw [hg0, hg1, he]
    simpa using congrArg Fin.val this
  by_cases hc : (items.get ⟨0, h0⟩).id = first.id
  · exact ⟨items.get ⟨1, h1⟩, hm1, fun he => hne (by rw [hc, he])⟩
  · exact ⟨items.get ⟨0, h0⟩, hm0, hc⟩

/-- C3: for a collection with at least two items and pairwise-distinct ids,
selectNextPair returns (in either presentation order) two distinct items
drawn from the collection, such that the primary one has the minimum
comparison count in the whole collection and the opponent is among the up
to 3 other items of smallest absolute rating distance to the primary (at
most 2 other items are strictly closer); for collections of size 0 or 1 it
returns none. -/
theorem selectNextPair_valid (items : List EloItem) (rand : ℕ) (flip : Bool)
    (hnd : (items.map EloItem.id).Nodup) :
    (items.length < 2 → selectNextPair items rand flip = none) ∧
    (2 ≤ items.length →
      ∃ first second,
        (selectNextPair items rand flip = some (first, second) ∨
          selectNextPair items rand flip = some (second, first)) ∧
        first ∈ items ∧ second ∈ items ∧ first.id ≠ second.id ∧
        (∀ item ∈ items, first.comparisons ≤ item.comparisons) ∧
        (items.filter (fun item => item.id != first.id)).countP
            (fun o =>
              decide (|o.rating - first.rating| < |second.rating - first.rating|)) ≤ 2) := by
  constructor
  · intro h
    unfold selectNextPair
    rw [if_pos h]
  · intro h2
    unfold selectNextPair
    rw [if_neg (by omega)]
    cases hs : items.mergeSort (fun a b => decide (a.comparisons ≤ b.comparisons)) with
    | nil =>
      have hperm := List.mergeSort_perm items (fun a b => decide (a.comparisons ≤ b.comparisons))
      rw [hs] at hperm
      have hlen := hperm.length_eq
      simp at hlen
      omega
    | cons first rest =>
      have hperm := List.mergeSort_perm items (fun a b => decide (a.comparisons ≤ b.comparisons))
      rw [hs] at hperm
      have hfirstmem : first ∈ items := hperm.subset (List.mem_cons_self _ _)
      have hmin : ∀ x ∈ items, first.comparisons ≤ x.comparisons :=
        sorted_head_min EloItem.comparisons items first rest hs
      obtain ⟨y, hy, hyne⟩ := exists_other_id items hnd h2 first
      have hyo : y ∈ items.filter (fun item => item.id != first.id) :=
        List.mem_filter.mpr ⟨hy, by simpa using hyne⟩
      have hpermO := List.mergeSort_perm (items.filter (fun item => item.id != first.id))
        (fun a b => decide (|a.rating - first.rating| ≤ |b.rating - first.rating|))
      have hsoneq : (items.filter (fun item => item.id != first.id)).mergeSort
          (fun a b => decide (|a.rating - first.rating| ≤ |b.rating - first.rating|)) ≠ [] := by
        intro hnil
        rw [hnil] at hpermO
        rw [List.nil_perm] at hpermO
        rw [hpermO] at hyo
        cases hyo
      obtain ⟨j, second, hjdef, hctake, hcs, hj2, hjs⟩ :=
        take3_getElem ((items.filter (fun item => item.id != first.id)).mergeSort
          (fun a b => decide (|a.rating - first.rating| ≤ |b.rating - first.rating|)))
          hsoneq rand
      have hsecmemS : second ∈ (items.filter (fun item => item.id != first.id)).mergeSort
          (fun a b => decide (|a.rating - first.rating| ≤ |b.rating - first.rating|)) :=
        List.mem_iff_getElem?.mpr ⟨j, hcs⟩
      have hsecmemO : second ∈ items.filter (fun item => item.id != first.id) :=
        hpermO.subset hsecmemS
      have hsecfacts := List.mem_filter.mp hsecmemO
      have hsecmem : second ∈ items := hsecfacts.1
      have hsecne : first.id ≠ second.id := by
        have := hsecfacts.2
        simp only [bne_iff_ne, ne_eq, decide_eq_true_eq] at this
        exact Ne.symm this
      have hcount : (items.filter (fun item => item.id != first.id)).countP
          (fun o => decide (|o.rating - first.rating| < |second.rating - first.rating|)) ≤ 2 := by
        have heq := List.Perm.countP_eq
          (fun o : EloItem => decide (|o.rating - first.rating| < |second.rating - first.rating|))
          hpermO.symm
        rw [heq]
        exact countP_sorted_lt_le (fun o : EloItem => |o.rating - first.rating|) _
          (mergeSort_sorted_by (fun o : EloItem => |o.rating - first.rating|) _) j hj2 hjs
          second hcs
      refine ⟨first, second, ?_, hfirstmem, hsecmem, hsecne, hmin, hcount⟩
      rw [hjdef] at hctake
      dsimp only []
      rw [hctake]
      cases flip with
      | true => exact Or.inl rfl
      | false => exact Or.inr rfl

theorem selectNextPair_valid_witness :
    (([EloItem.mk "a" "x" 1500 0, EloItem.mk "b" "y" 1450 1].map EloItem.id).Nodup ∧
      2 ≤ [EloItem.mk "a" "x" 1500 0, EloItem.mk "b" "y" 1450 1].length) ∧
    (∃ first second,
      (selectNextPair [EloItem.mk "a" "x" 1500 0, EloItem.mk "b" "y" 1450 1] 0 true =
          some (first, second) ∨
        selectNextPair [EloItem.mk "a" "x" 1500 0, EloItem.mk "b" "y" 1450 1] 0 true =
          some (second, first)) ∧
      first ∈ [EloItem.mk "a" "x" 1500 0, EloItem.mk "b" "y" 1450 1] ∧
      second ∈ [EloItem.mk "a" "x" 1500 0, EloItem.mk "b" "y" 1450 1] ∧
      first.id ≠ second.id ∧
      (∀ item ∈ [EloItem.mk "a" "x" 1500 0, EloItem.mk "b" "y" 1450 1],
        first.comparisons ≤ item.comparisons) ∧
      ([EloItem.mk "a" "x" 1500 0, EloItem.mk "b" "y" 1450 1].filter
          (fun item => item.id != first.id)).countP
          (fun o =>
            decide (|o.rating - first.rating| < |second.rating - first.rating|)) ≤ 2) :=
  ⟨⟨by decide, by decide⟩,
    (selectNextPair_valid [EloItem.mk "a" "x" 1500 0, EloItem.mk "b" "y" 1450 1] 0 true
      (by decide)).2 (by decide)⟩

lemma pick_from_pool {α : Type _} (f : α → ℝ) (pool : List α) (hpool : pool ≠ []) (rand : ℕ) :
    ∃ x, ((pool.mergeSort (fun a b => decide (f a ≤ f b))).take 3)[rand %
        ((pool.mergeSort (fun a b => decide (f a ≤ f b))).take 3).length]? = some x ∧
      x ∈ pool := by
  have hperm := List.mergeSort_perm pool (fun a b => decide (f a ≤ f b))
  have hsne : pool.mergeSort (fun a b => decide (f a ≤ f b)) ≠ [] := by
    intro hnil
    rw [hnil] at hperm
    exact hpool (List.nil_perm.mp hperm)
  obtain ⟨j, x, hjdef, hctake, hcs, hj2, hjs⟩ := take3_getElem _ hsne rand
  refine ⟨x, ?_, hperm.subset (List.mem_iff_getElem?.mpr ⟨j, hcs⟩)⟩
  rw [← hjdef]
  exact hctake

/-- C9: with the express filter enabled, pair selection on a collection of
at least two items still produces a pair of two distinct valid original
indices: one index carries a minimum comparison count, and whenever some
other item lies within rating distance 200 of that primary item the chosen
opponent also lies within distance 200; when no opponent is that close the
selection falls back to the unfiltered pool, so the filter alone never
yields a no-pair outcome. -/
theorem selectNextPairScreen_express (items : List LocalRankedItem) (rand : ℕ) (flip : Bool)
    (h2 : 2 ≤ items.length) :
    ∃ i j fitem sitem,
      (selectNextPairScreen items true rand flip = some (i, j) ∨
        selectNextPairScreen items true rand flip = some (j, i)) ∧
      i ≠ j ∧ items[i]? = some fitem ∧ items[j]? = some sitem ∧
      (∀ item ∈ items, fitem.comparisons ≤ item.comparisons) ∧
      ((∃ k kitem, k ≠ i ∧ items[k]? = some kitem ∧ |kitem.rating - fitem.rating| < 200) →
        |sitem.rating - fitem.rating| < 200) := by
  unfold selectNextPairScreen
  rw [if_neg (by omega)]
  cases hs : items.enum.mergeSort (fun a b => decide (a.2.comparisons ≤ b.2.comparisons)) with
  | nil =>
    have hperm := List.mergeSort_perm items.enum
      (fun a b => decide (a.2.comparisons ≤ b.2.comparisons))
    rw [hs] at hperm
    have hlen := hperm.length_eq
    simp at hlen
    omega
  | cons first rest =>
    have hperm := List.mergeSort_perm items.enum
      (fun a b => decide (a.2.comparisons ≤ b.2.comparisons))
    have hsorted := mergeSort_sorted_by
      (fun p : ℕ × LocalRankedItem => p.2.comparisons) items.enum
    rw [hs] at hperm hsorted
    have hrestlen : rest.length + 1 = items.length := by
      have := hperm.length_eq
      simpa using this
    have hfirstenum : first ∈ items.enum := hperm.subset (List.mem_cons_self _ _)
    have hfirstget : items[first.1]? = some first.2 := List.mem_enum_iff_getElem?.mp hfirstenum
    have hnodupfst : first.1 ∉ rest.map Prod.fst := by
      have hnd : ((first :: rest).map Prod.fst).Nodup := by
        rw [List.Perm.nodup_iff (hperm.map Prod.fst)]
        rw [List.enum_map_fst]
        exact List.nodup_range _
      rw [List.map_cons, List.nodup_cons] at hnd
      exact hnd.1
    have hmemrest : ∀ z ∈ rest, items[z.1]? = some z.2 := by
      intro z hz
      exact List.mem_enum_iff_getElem?.mp (hperm.subset (List.mem_cons_of_mem _ hz))
    have hmin : ∀ item ∈ items, first.2.comparisons ≤ item.comparisons := by
      intro item hitem
      obtain ⟨k, hk⟩ := List.mem_iff_getElem?.mp hitem
      have henum : (k, item) ∈ items.enum := List.mem_enum_iff_getElem?.mpr hk
      rcases List.mem_cons.mp (hperm.symm.subset henum) with h | h
      · rw [← h]
      · have := (List.pairwise_cons.mp hsorted).1 _ h
        simpa using this
    have hrestthr :
        (∃ k kitem, k ≠ first.1 ∧ items[k]? = some kitem ∧
          |kitem.rating - first.2.rating| < 200) →
        ∃ z ∈ rest, |z.2.rating - first.2.rating| < 200 := by
      rintro ⟨k, kitem, hkne, hkget, hkthr⟩
      have henum : (k, kitem) ∈ items.enum := List.mem_enum_iff_getElem?.mpr hkget
      rcases List.mem_cons.mp (hperm.symm.subset henum) with h | h
      · exact absurd (congrArg Prod.fst h) hkne
      · exact ⟨(k, kitem), h, hkthr⟩
    have hrestne : rest ≠ [] := by
      intro hnil
      rw [hnil] at hrestlen
      simp at hrestlen
      omega
    have hne_of_mem : ∀ x : ℕ × LocalRankedItem, x ∈ rest → first.1 ≠ x.1 := by
      intro x hx he
      exact hnodupfst (he ▸ List.mem_map_of_mem Prod.fst hx)
    dsimp only []
    by_cases hb1 : 1 < rest.length
    · by_cases hb2 : 0 < (rest.filter
          (fun o => decide (|o.2.rating - first.2.rating| < 200))).length
      · rw [if_pos (by simp [hb1]), if_pos hb2]
        obtain ⟨x, hxeq, hxpool⟩ := pick_from_pool
          (fun p : ℕ × LocalRankedItem => |p.2.rating - first.2.rating|)
          (rest.filter (fun o => decide (|o.2.rating - first.2.rating| < 200)))
          (List.length_pos.mp hb2) rand
        have hxrest : x ∈ rest := (List.mem_filter.mp hxpool).1
        rw [hxeq]
        refine ⟨first.1, x.1, first.2, x.2, ?_, hne_of_mem x hxrest, hfirstget,
          hmemrest x hxrest, hmin, ?_⟩
        · cases flip with
          | true => exact Or.inl rfl
          | false => exact Or.inr rfl
        · intro _
          have := (List.mem_filter.mp hxpool).2
          simpa using this
      · rw [if_pos (by simp [hb1]), if_neg hb2]
        obtain ⟨x, hxeq, hxpool⟩ := pick_from_pool
          (fun p : ℕ × LocalRankedItem => |p.2.rating - first.2.rating|) rest hrestne rand
        rw [hxeq]
        refine ⟨first.1, x.1, first.2, x.2, ?_, hne_of_mem x hxpool, hfirstget,
          hmemrest x hxpool, hmin, ?_⟩
        · cases flip with
          | true => exact Or.inl rfl
          | false => exact Or.inr rfl
        · intro hex
          exfalso
          obtain ⟨z, hzrest, hzthr⟩ := hrestthr hex
          have hzclose : z ∈ rest.filter
              (fun o => decide (|o.2.rating - first.2.rating| < 200)) :=
            List.mem_filter.mpr ⟨hzrest, by simpa using hzthr⟩
          exact hb2 (List.length_pos.mpr (List.ne_nil_of_mem hzclose))
    · rw [if_neg (by simp [hb1])]
      obtain ⟨x, hxeq, hxpool⟩ := pick_from_pool
        (fun p : ℕ × LocalRankedItem => |p.2.rating - first.2.rating|) rest hrestne rand
      rw [hxeq]
      refine ⟨first.1, x.1, first.2, x.2, ?_, hne_of_mem x hxpool, hfirstget,
        hmemrest x hxpool, hmin, ?_⟩
      · cases flip with
        | true => exact Or.inl rfl
        | false => exact Or.inr rfl
      · intro hex
        obtain ⟨z, hzrest, hzthr⟩ := hrestthr hex
        have hlen1 : rest.length = 1 := by
          have := List.length_pos.mpr hrestne
          omega
        obtain ⟨w, hw⟩ := List.length_eq_one.mp hlen1
        rw [hw] at hxpool hzrest
        have hxw : x = w := by simpa using hxpool
        have hzw : z = w := by simpa using hzrest
        rw [hxw, ← hzw]
        exact hzthr

theorem selectNextPairScreen_express_witness :
    2 ≤ [LocalRankedItem.mk "a" "a" "a" 1500 0, LocalRankedItem.mk "b" "b" "b" 1500 0].length ∧
    (∃ i j fitem sitem,
      (selectNextPairScreen
          [LocalRankedItem.mk "a" "a" "a" 1500 0, LocalRankedItem.mk "b" "b" "b" 1500 0]
          true 0 true = some (i, j) ∨
        selectNextPairScreen
          [LocalRankedItem.mk "a" "a" "a" 1500 0, LocalRankedItem.mk "b" "b" "b" 1500 0]
          true 0 true = some (j, i)) ∧
      i ≠ j ∧
      [LocalRankedItem.mk "a" "a" "a" 1500 0, LocalRankedItem.mk "b" "b" "b" 1500 0][i]? =
        some fitem ∧
      [LocalRankedItem.mk "a" "a" "a" 1500 0, LocalRankedItem.mk "b" "b" "b" 1500 0][j]? =
        some sitem ∧
      (∀ item ∈ [LocalRankedItem.mk "a" "a" "a" 1500 0, LocalRankedItem.mk "b" "b" "b" 1500 0],
        fitem.comparisons ≤ item.comparisons) ∧
      ((∃ k kitem, k ≠ i ∧
          [LocalRankedItem.mk "a" "a" "a" 1500 0,
            LocalRankedItem.mk "b" "b" "b" 1500 0][k]? = some kitem ∧
          |kitem.rating - fitem.rating| < 200) →
        |sitem.rating - fitem.rating| < 200)) :=
  ⟨by decide,
    selectNextPairScreen_express
      [LocalRankedItem.mk "a" "a" "a" 1500 0, LocalRankedItem.mk "b" "b" "b" 1500 0]
      0 true (by decide)⟩
